import Mathlib

/-!
Shallow embedding of the Nahara node-graph engine (src/graph.ts, src/node.ts).

TypeScript records (`Record<string, T>`) are modelled as association lists
`List (String × T)` whose lookup returns the first matching entry; JS `Map`
insertion (`set`, which overwrites) is modelled by consing the new entry in
front, so that first-match lookup sees the latest binding.  The `unknown`
values flowing through sockets are modelled by the closed inductive `Value`,
with `Value.undef` playing the role of JavaScript `undefined` (in particular,
reading an absent record field yields `Value.undef`).  Numbers that only
serve as layout data (`x`, `y`, `width`) are modelled as `Int`; they are never
computed with.  Thrown exceptions are modelled with `Except String`.
-/

set_option maxRecDepth 4000

namespace NaharaGraph

/-- Socket reference for incoming sockets: the element holding the socket and
the socket name (graph.ts, `Incoming`). -/
structure Incoming where
  elementId : String
  socket : String
deriving DecidableEq, Repr

/-- Values flowing through sockets; models the `unknown` of the TypeScript
code.  `undef` models JavaScript `undefined`. -/
inductive Value where
  | undef
  | int (i : Int)
  | str (s : String)
deriving DecidableEq, Repr

/-- Node element: consumes inputs, evaluates, returns outputs
(graph.ts, `NodeElement`).  `config` is the opaque per-node configuration. -/
structure NodeElement where
  elementId : String
  label : Option String
  x : Int
  y : Int
  width : Int
  typeId : String
  config : Value
  incoming : List (String × Incoming)
deriving DecidableEq, Repr

/-- Exported input socket of a group (graph.ts, `GroupInputExport`); the
type descriptor is opaque to the engine and modelled as a string tag. -/
structure GroupInputExport where
  id : String
  label : Option String
  ty : String
deriving DecidableEq, Repr

/-- Exported output socket of a group (graph.ts, `GroupOutputExport`);
`target` points at the internal producer feeding this exported output. -/
structure GroupOutputExport where
  id : String
  label : Option String
  ty : String
  target : Incoming
deriving DecidableEq, Repr

mutual

/-- Graph element (graph.ts, `GraphElement`): frame, node, group (a nested
subgraph with its own `incoming` wiring), and the two group boundary
markers.  The element arrays (`readonly GraphElement[]`, both the top-level
graph and every group subgraph) are modelled by the mutually defined
sequence type `GEList`, so that recursion through nested subgraphs is
structural. -/
inductive GraphElement where
  | frame (elementId : String) (label : Option String) (childrenIds : List String)
  | node (n : NodeElement)
  | group (elementId : String) (label : Option String) (x y width : Int)
      (graph : GEList) (incoming : List (String × Incoming))
  | groupInput (elementId : String) (label : Option String) (x y width : Int)
      (exports : List GroupInputExport)
  | groupOutput (elementId : String) (label : Option String) (x y width : Int)
      (exports : List GroupOutputExport)

/-- Sequence of graph elements (models `readonly GraphElement[]`). -/
inductive GEList where
  | nil
  | cons (e : GraphElement) (rest : GEList)

end

/-- First-match lookup in an association list; models both
`record[key]` on a JavaScript object and `map.get(key)` on a `Map`. -/
def lookupA {α : Type} (l : List (String × α)) (k : String) : Option α :=
  (l.find? (fun p => p.1 == k)).map (fun p => p.2)

/-- The redirect table of `flatten`: a `Map` keyed by the string
`elementId ++ "::" ++ socket`.  The stored value is an `Option` because the
source stores `element.incoming[e.id]`, which may be `undefined` when the
group has no wiring for an exported input. -/
abbrev RedirTable : Type := List (String × Option Incoming)

/-- Reads the redirect table; `map.get` yields `undefined` both when the key
is absent and when `undefined` was stored, so both collapse to `none`. -/
def lookupRedir (rd : RedirTable) (k : String) : Option Incoming :=
  match lookupA rd k with
  | some v => v
  | none => none

/-- The key `a::b` used by the redirect table (template literal in the
source). -/
def redirKey (a b : String) : String :=
  a ++ "::" ++ b

/-- First group-input element of a subgraph
(`element.graph.find((e) => e.elementType == "group-input")`). -/
def findGroupInput : GEList → Option (String × List GroupInputExport)
  | GEList.nil => none
  | GEList.cons (GraphElement.groupInput id _ _ _ _ exps) _ => some (id, exps)
  | GEList.cons _ rest => findGroupInput rest

/-- First group-output element of a subgraph
(`element.graph.find((e) => e.elementType == "group-output")`). -/
def findGroupOutput : GEList → Option (List GroupOutputExport)
  | GEList.nil => none
  | GEList.cons (GraphElement.groupOutput _ _ _ _ _ exps) _ => some exps
  | GEList.cons _ rest => findGroupOutput rest

/-- Redirect registrations contributed by one group element: for every
group-input export `(groupInId, exportId) -> group.incoming[exportId]` and
for every group-output export `(groupId, exportId) -> export.target`.
The list is reversed because each `Map.set` is modelled by consing in front
(latest registration wins on lookup). -/
def groupRedirects (gid : String) (ginc : List (String × Incoming))
    (giId : String) (giExps : List GroupInputExport)
    (goExps : List GroupOutputExport) : RedirTable :=
  (giExps.map (fun e => (redirKey giId e.id, lookupA ginc e.id))
    ++ goExps.map (fun e => (redirKey gid e.id, some e.target))).reverse

/-- One rewrite sweep over one `incoming` record: every entry whose
`(elementId, socket)` matches a redirect key is replaced by the redirect
target; the boolean records whether any entry matched (the `changed`
flag of the source). -/
def rewriteIncoming (rd : RedirTable) :
    List (String × Incoming) → List (String × Incoming) × Bool
  | [] => ([], false)
  | (s, inc) :: rest =>
    match rewriteIncoming rd rest,
        lookupRedir rd (redirKey inc.elementId inc.socket) with
    | (r, _), some tgt => ((s, tgt) :: r, true)
    | (r, ch), none => ((s, inc) :: r, ch)

/-- Rewrites one element (`{ ...e, incoming }` in the source). -/
def rewriteElem (rd : RedirTable) (e : NodeElement) : NodeElement × Bool :=
  match rewriteIncoming rd e.incoming with
  | (inc2, ch) => ({ e with incoming := inc2 }, ch)

/-- One full pass of the fixpoint loop over all flattened elements. -/
def rewritePass (rd : RedirTable) : List NodeElement → List NodeElement × Bool
  | [] => ([], false)
  | e :: rest =>
    match rewriteElem rd e, rewritePass rd rest with
    | (e2, ch1), (rest2, ch2) => (e2 :: rest2, ch1 || ch2)

/-- The do-while fixpoint loop ("perform multiple rounds of flattening until
it cannot flatten anymore").  The source loops unboundedly; here the loop
carries fuel that exceeds the number of passes any terminating (acyclic)
run can take — an acyclic redirect chain has length at most the size of the
table, so at most `rd.length + 1` passes happen before a pass reports no
change.  Exhausted fuel (reachable only for cyclic redirect chains, on which
the source diverges) is reported as an error. -/
def fixLoop (rd : RedirTable) : Nat → List NodeElement → Except String (List NodeElement)
  | 0, _ => Except.error "flatten fixpoint does not terminate"
  | fuel + 1, l =>
    match rewritePass rd l with
    | (l2, true) => fixLoop rd fuel l2
    | (l2, false) => Except.ok l2

/-- Collection phase of `flatten`: walks the element list, passing node
elements through, registering a group's redirects and inlining its fully
flattened subgraph (the recursive `flatten(element)` call is inlined here as
`flattenElems` followed by the subgraph's own fixpoint loop — each recursive
call of the source owns a fresh redirect table), and dropping every other
element kind.  Returns the flattened collection and this call's redirect
table. -/
def flattenElems : GEList → Except String (List NodeElement × RedirTable)
  | GEList.nil => Except.ok ([], [])
  | GEList.cons (GraphElement.node n) rest =>
    match flattenElems rest with
    | Except.error msg => Except.error msg
    | Except.ok (fl, rd) => Except.ok (n :: fl, rd)
  | GEList.cons (GraphElement.group gid _ _ _ _ sub ginc) rest =>
    match findGroupInput sub, findGroupOutput sub with
    | some (giId, giExps), some goExps =>
      match flattenElems sub with
      | Except.error msg => Except.error msg
      | Except.ok (sfl, srd) =>
        match fixLoop srd (srd.length + 2) sfl with
        | Except.error msg => Except.error msg
        | Except.ok subFl =>
          match flattenElems rest with
          | Except.error msg => Except.error msg
          | Except.ok (fl, rd) =>
            Except.ok (subFl ++ fl, rd ++ groupRedirects gid ginc giId giExps goExps)
    | _, _ => Except.error ("Group " ++ gid ++ " must have input and output")
  | GEList.cons _ rest => flattenElems rest

/-- Flatten a complex node graph to a simple node graph (graph.ts,
`flatten`): collect and register, then run the rewrite fixpoint with this
call's redirect table. -/
def flatten (g : GEList) : Except String (List NodeElement) :=
  match flattenElems g with
  | Except.error msg => Except.error msg
  | Except.ok (fl, rd) => fixLoop rd (rd.length + 2) fl

/-! ## Evaluation graph (graph.ts, `buildEvalGraph`; node type contract from node.ts) -/

/-- Input socket descriptor returned by `NodeType.input` (node.ts): label,
opaque type descriptor (modelled as a string tag), and the declared default
value used when the socket has no wiring. -/
structure SocketDesc where
  label : String
  ty : String
  default : Value
deriving DecidableEq, Repr

/-- Output socket descriptor returned by `NodeType.output` (node.ts). -/
structure OutSocketDesc where
  label : String
  ty : String
deriving DecidableEq, Repr

/-- Node type contract (node.ts, `NodeType`): configuration-dependent input
and output socket descriptors and the evaluation function.  Input and output
records are string-keyed association lists of values. -/
structure NodeType where
  typeId : String
  label : String
  initialConfig : Value
  input : Value → List (String × SocketDesc)
  output : Value → List (String × OutSocketDesc)
  evaluate : List (String × Value) → Value → List (String × Value)

/-- Finds the first element of the flat graph with the given id
(`graph.find((e) => e.elementId == elementId)`). -/
def findElem (graph : List NodeElement) (id : String) : Option NodeElement :=
  graph.find? (fun e => e.elementId == id)

/-- The dependencies pushed for one element: for each `incoming` entry, in
record order, the referenced element of the flat graph, entries whose
referenced id is absent being skipped (`if (!element) continue`). -/
def depsOf (graph : List NodeElement) (e : NodeElement) : List NodeElement :=
  e.incoming.filterMap (fun p => findElem graph p.2.elementId)

theorem depsOf_subset {graph : List NodeElement} {t e : NodeElement}
    (h : e ∈ depsOf graph t) : e ∈ graph := by
  rcases List.mem_filterMap.mp h with ⟨p, _, hp⟩
  exact List.mem_of_find?_eq_some hp

theorem length_filter_le {α : Type} (l : List α) (p q : α → Bool)
    (h : ∀ x, q x = true → p x = true) :
    (l.filter q).length ≤ (l.filter p).length := by
  induction l with
  | nil => simp
  | cons a as ih =>
    by_cases hq : q a = true
    · simp [List.filter_cons, hq, h a hq]
      omega
    · rw [Bool.not_eq_true] at hq
      by_cases hp : p a = true
      · simp [List.filter_cons, hq, hp]
        omega
      · rw [Bool.not_eq_true] at hp
        simp [List.filter_cons, hq, hp]
        exact ih

theorem length_filter_lt {α : Type} (l : List α) (p q : α → Bool)
    (h : ∀ x, q x = true → p x = true) (a : α) (ha : a ∈ l)
    (hpa : p a = true) (hqa : q a = false) :
    (l.filter q).length < (l.filter p).length := by
  induction l with
  | nil => cases ha
  | cons b bs ih =>
    rcases List.mem_cons.mp ha with rfl | hb
    · have h1 := length_filter_le bs p q h
      simp [List.filter_cons, hpa, hqa]
      omega
    · by_cases hq : q b = true
      · have h1 := ih hb
        simp [List.filter_cons, hq, h b hq]
        omega
      · rw [Bool.not_eq_true] at hq
        by_cases hp : p b = true
        · have h1 := ih hb
          simp [List.filter_cons, hq, hp]
          omega
        · rw [Bool.not_eq_true] at hp
          simp [List.filter_cons, hq, hp]
          exact ih hb

/-- The iterative depth-first traversal of `buildEvalGraph`: pop the top of
the stack; skip it when it is already recorded in the order
(`evalOrder.includes`); otherwise prepend it to the order
(`evalOrder.unshift`) and push the elements referenced by its `incoming`
record (array `push` followed by `pop` is last-in first-out, so the pushed
dependencies, reversed, go on top of the stack).  The proof argument that
every stacked element belongs to the flat graph only serves termination and
is erased at runtime. -/
def visit (graph : List NodeElement) :
    (stack : List NodeElement) → (order : List NodeElement) →
    (∀ e ∈ stack, e ∈ graph) → List NodeElement
  | [], order, _ => order
  | top :: stack, order, hs =>
    if h : top ∈ order then
      visit graph stack order (fun e he => hs e (List.mem_cons_of_mem _ he))
    else
      visit graph ((depsOf graph top).reverse ++ stack) (top :: order)
        (fun e he => by
          rcases List.mem_append.mp he with h1 | h2
          · exact depsOf_subset (List.mem_reverse.mp h1)
          · exact hs e (List.mem_cons_of_mem _ h2))
termination_by stack order _ =>
  ((graph.filter (fun g => decide (g ∉ order))).length, stack.length)
decreasing_by
  · apply Prod.Lex.right
    simp
  · apply Prod.Lex.left
    refine length_filter_lt graph _ _ ?_ top (hs top (List.mem_cons_self _ _)) ?_ ?_
    · intro x hx
      simp only [decide_eq_true_eq] at hx ⊢
      exact fun hmem => hx (List.mem_cons_of_mem _ hmem)
    · simpa using h
    · simp

/-- The target loop of `buildEvalGraph`: for each requested id, in the given
order, find its element (failing with a lookup error naming the id when it
is absent) and run the depth-first traversal from it, extending the order
accumulated so far. -/
def buildOrder (graph : List NodeElement) :
    List String → List NodeElement → Except String (List NodeElement)
  | [], order => Except.ok order
  | id :: rest, order =>
    match hfind : findElem graph id with
    | none => Except.error ("Unable to find element with ID " ++ id)
    | some e =>
      buildOrder graph rest
        (visit graph [e] order (fun x hx => by
          rcases List.mem_singleton.mp hx with rfl
          exact List.mem_of_find?_eq_some hfind))

/-- The evaluation order computed by `buildEvalGraph` before it returns the
evaluator closure. -/
def buildEvalOrder (graph : List NodeElement) (targetIds : List String) :
    Except String (List NodeElement) :=
  buildOrder graph targetIds []

/-- Reading a field of a produced output record
(`result[element.incoming[socket].socket]`): an absent field reads as
JavaScript `undefined`. -/
def fieldOf (r : List (String × Value)) (k : String) : Value :=
  (lookupA r k).getD Value.undef

/-- Assembles the input record of one element, walking the declared input
socket descriptors in order: a wired socket reads the referenced producer's
entry in the results map (its absence is the fatal internal invariant
violation of the source) and extracts the named output field; an unwired
socket takes the descriptor's declared default. -/
def buildInput (results : List (String × List (String × Value)))
    (incoming : List (String × Incoming)) :
    List (String × SocketDesc) → Except String (List (String × Value))
  | [] => Except.ok []
  | (s, d) :: rest =>
    match lookupA incoming s with
    | some ref =>
      match lookupA results ref.elementId with
      | none => Except.error "BUG! Failed to obtain result from previous element"
      | some r =>
        match buildInput results incoming rest with
        | Except.error msg => Except.error msg
        | Except.ok tail => Except.ok ((s, fieldOf r ref.socket) :: tail)
    | none =>
      match buildInput results incoming rest with
      | Except.error msg => Except.error msg
      | Except.ok tail => Except.ok ((s, d.default) :: tail)

/-- The evaluator loop returned by `buildEvalGraph`: processes the order
front to back, resolving each element's node type through the registry,
assembling its input record, invoking `evaluate`, and storing the output
record in the results map under the element's id (the map is extended at the
end, matching `Map.set` insertion order for fresh keys).  The first
component instruments the run with the ids of the elements whose `evaluate`
was actually invoked, in invocation order; the second component is the
results map the source returns, or the thrown error. -/
def runEval (registry : String → NodeType) :
    List NodeElement → List (String × List (String × Value)) →
    List String × Except String (List (String × List (String × Value)))
  | [], results => ([], Except.ok results)
  | e :: rest, results =>
    let ty := registry e.typeId
    match buildInput results e.incoming (ty.input e.config) with
    | Except.error msg => ([], Except.error msg)
    | Except.ok input =>
      match runEval registry rest
          (results ++ [(e.elementId, ty.evaluate input e.config)]) with
      | (tr, res) => (e.elementId :: tr, res)

/-- Build evaluation graph (graph.ts, `buildEvalGraph`): computes the
evaluation order eagerly (target lookup errors abort the whole call, yielding
no evaluator), then returns the evaluator, which the caller runs against a
registry to obtain the results map. -/
def buildEvalGraph (graph : List NodeElement) (targetIds : List String) :
    Except String ((String → NodeType) →
      Except String (List (String × List (String × Value)))) :=
  (buildEvalOrder graph targetIds).map
    (fun order => fun registry => (runEval registry order []).2)

/-! ## Properties stated by the specification -/

/-- The claimed topological-order property: every element at position `i`
has each id named in its incoming map either held by an element at a
position strictly less than `i`, or absent from the flat graph. -/
def topoOrderOk (graph : List NodeElement) (order : List NodeElement) : Prop :=
  ∀ i : Fin order.length, ∀ p ∈ (order.get i).incoming,
    (∃ j : Fin order.length, j.1 < i.1 ∧ (order.get j).elementId = p.2.elementId) ∨
    findElem graph p.2.elementId = none

instance (graph : List NodeElement) (order : List NodeElement) :
    Decidable (topoOrderOk graph order) := by
  unfold topoOrderOk
  infer_instance

/-- Reachability of an element of the flat graph from a requested target id,
following `incoming` references that resolve in the flat graph (the edges
the traversal of `buildEvalGraph` follows). -/
inductive ReachableFrom (graph : List NodeElement) (t : String) : NodeElement → Prop where
  | root (e : NodeElement) : findElem graph t = some e → ReachableFrom graph t e
  | step (a b : NodeElement) :
      ReachableFrom graph t a → b ∈ depsOf graph a → ReachableFrom graph t b

/-- A node element occurring somewhere in a graph: at top level or nested
inside a group subgraph at any depth. -/
inductive NestedNode : GEList → NodeElement → Prop where
  | here (n : NodeElement) (rest : GEList) :
      NestedNode (GEList.cons (GraphElement.node n) rest) n
  | there (el : GraphElement) (rest : GEList) (n : NodeElement) :
      NestedNode rest n → NestedNode (GEList.cons el rest) n
  | inSub (gid : String) (lbl : Option String) (x y w : Int) (sub : GEList)
      (ginc : List (String × Incoming)) (rest : GEList) (n : NodeElement) :
      NestedNode sub n →
      NestedNode (GEList.cons (GraphElement.group gid lbl x y w sub ginc) rest) n

/-- Two node elements agreeing on every field except the values of their
`incoming` wiring; the incoming records carry the same socket keys in the
same order. -/
def agreeExceptIncoming (a b : NodeElement) : Prop :=
  a.elementId = b.elementId ∧ a.label = b.label ∧ a.x = b.x ∧ a.y = b.y ∧
  a.width = b.width ∧ a.typeId = b.typeId ∧ a.config = b.config ∧
  a.incoming.map Prod.fst = b.incoming.map Prod.fst

/-- A graph consisting only of plain node elements. -/
def nodesOnly : GEList → Bool
  | GEList.nil => true
  | GEList.cons (GraphElement.node _) rest => nodesOnly rest
  | GEList.cons _ _ => false

/-- The node elements of a graph, in order, ignoring every other element
kind. -/
def nodesOf : GEList → List NodeElement
  | GEList.nil => []
  | GEList.cons (GraphElement.node n) rest => n :: nodesOf rest
  | GEList.cons _ rest => nodesOf rest

/-- A flat collection of node elements viewed again as a graph (the way the
output of `flatten`, a `readonly NodeElement[]`, is fed back into graph
positions). -/
def ofNodes : List NodeElement → GEList
  | [] => GEList.nil
  | n :: rest => GEList.cons (GraphElement.node n) (ofNodes rest)

/-! ## Concrete graphs and node types used by individual claims -/

/-- Node element with irrelevant layout fields fixed, used to build the
concrete example graphs. -/
def mkNode (id : String) (tid : String) (inc : List (String × Incoming)) : NodeElement :=
  { elementId := id, label := none, x := 0, y := 0, width := 0,
    typeId := tid, config := Value.undef, incoming := inc }

def descN (d : Value) : SocketDesc := { label := "in", ty := "num", default := d }

def outD : OutSocketDesc := { label := "out", ty := "num" }

def tyC : NodeType :=
  { typeId := "tC", label := "source", initialConfig := Value.undef,
    input := fun _ => [], output := fun _ => [("o", outD)],
    evaluate := fun _ _ => [("o", Value.int 1)] }

def tyB : NodeType :=
  { typeId := "tB", label := "one input", initialConfig := Value.undef,
    input := fun _ => [("z", descN (Value.int 0))], output := fun _ => [("o", outD)],
    evaluate := fun _ _ => [("o", Value.int 2)] }

def tyA : NodeType :=
  { typeId := "tA", label := "two inputs", initialConfig := Value.undef,
    input := fun _ => [("x", descN (Value.int 0)), ("y", descN (Value.int 0))],
    output := fun _ => [("o", outD)],
    evaluate := fun _ _ => [("o", Value.int 3)] }

def tyD : NodeType :=
  { typeId := "tD", label := "one input w", initialConfig := Value.undef,
    input := fun _ => [("w", descN (Value.int 0))], output := fun _ => [("o", outD)],
    evaluate := fun _ _ => [("o", Value.int 4)] }

/-- A total registry resolving every type id used by the examples. -/
def dReg : String → NodeType := fun tid =>
  if tid = "tA" then tyA else if tid = "tB" then tyB
  else if tid = "tD" then tyD else tyC

/-- Diamond flat graph: `A` consumes `B` (socket `x`) and `C` (socket `y`),
`B` consumes `C` (socket `z`), `C` is a source. -/
def aN : NodeElement := mkNode "A" "tA" [("x", ⟨"B", "o"⟩), ("y", ⟨"C", "o"⟩)]

def bN : NodeElement := mkNode "B" "tB" [("z", ⟨"C", "o"⟩)]

def cN : NodeElement := mkNode "C" "tC" []

def dGraph : List NodeElement := [aN, bN, cN]

/-- Diamond graph extended by a second consumer `D` of `C`, used for the
deduplication claim. -/
def dN : NodeElement := mkNode "D" "tD" [("w", ⟨"C", "o"⟩)]

def g5 : List NodeElement := [aN, bN, cN, dN]

/-- Two-node flat graph for the deduplication witness: `E1` consumes the
source `S`. -/
def sN : NodeElement := mkNode "S" "tC" []

def e1N : NodeElement := mkNode "E1" "tB" [("z", ⟨"S", "o"⟩)]

def gW : List NodeElement := [sN, e1N]

/-- Scenario B: a group `G` exposing one input and one output wired straight
through (`Gout` targets `Gin`), `G` wired from the outside producer `P`, and
an outside consumer `K` wired to the group output. -/
def bP : NodeElement := mkNode "P" "tC" []

def bK : NodeElement := mkNode "K" "tB" [("in", ⟨"G", "out"⟩)]

def bGroup : GraphElement :=
  GraphElement.group "G" none 0 0 0
    (GEList.cons (GraphElement.groupInput "Gin" none 0 0 0 [⟨"in", none, "num"⟩])
      (GEList.cons
        (GraphElement.groupOutput "Gout" none 0 0 0 [⟨"out", none, "num", ⟨"Gin", "in"⟩⟩])
        GEList.nil))
    [("in", ⟨"P", "o"⟩)]

def bGraph : GEList :=
  GEList.cons (GraphElement.node bP)
    (GEList.cons bGroup (GEList.cons (GraphElement.node bK) GEList.nil))

/-- Nested-group graph for the chained-redirect claim: the outer group `G`
exports output `e` whose target is the boundary of the inner group `H`
(`H` exports `s`, produced by the concrete node `N`); the outside consumer
`K` is wired to `G`'s output. -/
def c3N : NodeElement := mkNode "N" "tC" []

def c3H : GraphElement :=
  GraphElement.group "H" none 0 0 0
    (GEList.cons (GraphElement.groupInput "Hin" none 0 0 0 [])
      (GEList.cons
        (GraphElement.groupOutput "Hout" none 0 0 0 [⟨"s", none, "num", ⟨"N", "o"⟩⟩])
        (GEList.cons (GraphElement.node c3N) GEList.nil)))
    []

def c3G : GraphElement :=
  GraphElement.group "G" none 0 0 0
    (GEList.cons (GraphElement.groupInput "Gin" none 0 0 0 [])
      (GEList.cons
        (GraphElement.groupOutput "Gout" none 0 0 0 [⟨"e", none, "num", ⟨"H", "s"⟩⟩])
        (GEList.cons c3H GEList.nil)))
    []

def c3K : NodeElement := mkNode "K" "tB" [("in", ⟨"G", "e"⟩)]

def c3Graph : GEList :=
  GEList.cons (GraphElement.node cN)
    (GEList.cons c3G (GEList.cons (GraphElement.node c3K) GEList.nil))

/-! ## Claim theorems: flatten scenarios and the order builder defect -/

/-- C1: the claim that `buildEvalGraph` always produces a valid topological
order fails on the code.  On the diamond graph (`A` consumes `B` and `C`,
`B` consumes `C`) with target `A`, the traversal pops `C` before `B` and
prepends each to the order, producing `[B, C, A]`, in which `B` sits at
position 0 while its dependency `C` sits at position 1 — not a topological
order. -/
theorem evalOrder_diamond_not_topological :
    buildEvalOrder dGraph ["A"] = Except.ok [bN, cN, aN] ∧
    ¬ topoOrderOk dGraph [bN, cN, aN] := by
  constructor
  · simp +decide [buildEvalOrder, buildOrder, visit, depsOf, findElem, List.find?,
      List.filterMap, lookupA, dGraph, aN, bN, cN, mkNode]
  · decide

/-- C2: the claim that the evaluator's internal invariant-violation branch is
unreachable fails on the code.  On the diamond graph the computed order is
`[B, C, A]`; `B` is processed first, its declared input socket `z` is wired
to the producer `C`, `C` is present in the flat graph, yet `C` has no entry
in the results map, so the run throws the `BUG!` error. -/
theorem evaluator_invariant_violation_reachable :
    buildEvalOrder dGraph ["A"] = Except.ok [bN, cN, aN] ∧
    lookupA bN.incoming "z" = some ⟨"C", "o"⟩ ∧
    lookupA ((dReg bN.typeId).input bN.config) "z" = some (descN (Value.int 0)) ∧
    findElem dGraph "C" = some cN ∧
    (runEval dReg [bN, cN, aN] []).2 =
      Except.error "BUG! Failed to obtain result from previous element" := by
  refine ⟨?_, by decide, rfl, by decide, rfl⟩
  simp +decide [buildEvalOrder, buildOrder, visit, depsOf, findElem, List.find?,
    List.filterMap, lookupA, dGraph, aN, bN, cN, mkNode]

/-- C3: the claim that redirect chains resolve across nesting levels fails on
the code.  Each recursive `flatten` call owns a fresh redirect table, so when
the outer group `G` re-exports the boundary socket `(H, s)` of the nested
group `H`, the outer fixpoint rewrites the consumer `K` to `(H, s)` and then
stops: `H`'s redirect lives only in the discarded inner table.  `K` is left
referencing the id `H`, which names no element of the flat output, instead
of the concrete producer `N`. -/
theorem flatten_nested_output_chain_unresolved :
    flatten c3Graph =
      Except.ok [cN, c3N, { c3K with incoming := [("in", ⟨"H", "s"⟩)] }] ∧
    lookupA ({ c3K with incoming := [("in", ⟨"H", "s"⟩)] } : NodeElement).incoming "in" =
      some ⟨"H", "s"⟩ ∧
    findElem [cN, c3N, { c3K with incoming := [("in", ⟨"H", "s"⟩)] }] "H" = none ∧
    c3N.elementId = "N" ∧
    lookupA ({ c3K with incoming := [("in", ⟨"H", "s"⟩)] } : NodeElement).incoming "in" ≠
      some ⟨"N", "o"⟩ := by
  exact ⟨rfl, by decide, by decide, rfl, by decide⟩

/-- C4: Scenario B confirmed.  For the straight-through group `G` (output
`out` targeting input export `in`, which the group wires to the outside
producer `P`), flattening rewrites the outside consumer `K` to refer
directly to `P`, and neither `G` nor its boundary markers `Gin`/`Gout`
appear in the flat output. -/
theorem flatten_straight_through_group :
    flatten bGraph = Except.ok [bP, { bK with incoming := [("in", ⟨"P", "o"⟩)] }] ∧
    (∀ e ∈ [bP, { bK with incoming := [("in", ⟨"P", "o"⟩)] }],
      e.elementId ≠ "G" ∧ e.elementId ≠ "Gin" ∧ e.elementId ≠ "Gout") := by
  exact ⟨rfl, by decide⟩

/-! ## Flatten on redirect-free graphs (idempotence) -/

theorem rewriteIncoming_nil_table (inc : List (String × Incoming)) :
    rewriteIncoming [] inc = (inc, false) := by
  induction inc with
  | nil => rfl
  | cons p rest ih =>
    obtain ⟨s, i⟩ := p
    simp [rewriteIncoming, ih, lookupRedir, lookupA]

theorem rewriteElem_nil_table (e : NodeElement) : rewriteElem [] e = (e, false) := by
  simp [rewriteElem, rewriteIncoming_nil_table]

theorem rewritePass_nil_table (l : List NodeElement) : rewritePass [] l = (l, false) := by
  induction l with
  | nil => rfl
  | cons e rest ih => simp [rewritePass, rewriteElem_nil_table, ih]

theorem fixLoop_nil_table (fuel : Nat) (l : List NodeElement) :
    fixLoop [] (fuel + 1) l = Except.ok l := by
  simp [fixLoop, rewritePass_nil_table]

theorem flattenElems_nodesOnly (g : GEList) (h : nodesOnly g = true) :
    flattenElems g = Except.ok (nodesOf g, []) := by
  induction g using nodesOnly.induct with
  | case1 => rfl
  | case2 n rest ih =>
    simp only [nodesOnly] at h
    simp [flattenElems, nodesOf, ih h]
  | case3 e rest h1 =>
    exfalso
    cases e with
    | node n => exact h1 n rfl
    | frame a b c => simp [nodesOnly] at h
    | group a b c d w sub ginc => simp [nodesOnly] at h
    | groupInput a b c d w exps => simp [nodesOnly] at h
    | groupOutput a b c d w exps => simp [nodesOnly] at h

theorem flatten_nodesOnly (g : GEList) (h : nodesOnly g = true) :
    flatten g = Except.ok (nodesOf g) := by
  have h2 : (([] : RedirTable)).length + 2 = 1 + 1 := rfl
  simp [flatten, flattenElems_nodesOnly g h, h2, fixLoop_nil_table]

theorem nodesOnly_ofNodes (l : List NodeElement) : nodesOnly (ofNodes l) = true := by
  induction l with
  | nil => rfl
  | cons n rest ih => simpa [ofNodes, nodesOnly] using ih

theorem nodesOf_ofNodes (l : List NodeElement) : nodesOf (ofNodes l) = l := by
  induction l with
  | nil => rfl
  | cons n rest ih => simp [ofNodes, nodesOf, ih]

/-- C6: flatten is idempotent.  A graph consisting only of plain node
elements is returned unchanged (the redirect table stays empty, so the first
rewrite pass reports no change), and the output of any flatten call, viewed
again as a graph, flattens to itself. -/
theorem flatten_idempotent :
    (∀ g : GEList, nodesOnly g = true → flatten g = Except.ok (nodesOf g)) ∧
    (∀ (g : GEList) (l : List NodeElement), flatten g = Except.ok l →
      flatten (ofNodes l) = Except.ok l) := by
  constructor
  · exact flatten_nodesOnly
  · intro g l _
    have h := flatten_nodesOnly (ofNodes l) (nodesOnly_ofNodes l)
    rwa [nodesOf_ofNodes] at h

/-- C6 witness: both halves of the idempotence theorem applied to the
one-node collection `[cN]`. -/
theorem flatten_idempotent_witness :
    flatten (ofNodes [cN]) = Except.ok (nodesOf (ofNodes [cN])) ∧
    flatten (ofNodes [cN]) = Except.ok [cN] :=
  ⟨flatten_idempotent.1 (ofNodes [cN]) (by decide),
   flatten_idempotent.2 (ofNodes [cN]) [cN]
     (flatten_idempotent.1 (ofNodes [cN]) (by decide))⟩

/-! ## Missing requested targets -/

theorem buildOrder_missing (graph : List NodeElement) (post : List String)
    (m : String) (hm : findElem graph m = none) :
    ∀ pre : List String, (∀ i ∈ pre, (findElem graph i).isSome) →
    ∀ order : List NodeElement,
      buildOrder graph (pre ++ m :: post) order =
        Except.error ("Unable to find element with ID " ++ m) := by
  intro pre
  induction pre with
  | nil =>
    intro _ order
    rw [List.nil_append]
    unfold buildOrder
    split
    · rfl
    · rename_i e he
      rw [hm] at he
      cases he
  | cons i pre ih =>
    intro hpre order
    obtain ⟨e, he⟩ := Option.isSome_iff_exists.mp (hpre i (List.mem_cons_self i _))
    rw [List.cons_append]
    unfold buildOrder
    split
    · rename_i hn
      rw [hn] at he
      cases he
    · exact ih (fun j hj => hpre j (List.mem_cons_of_mem _ hj)) _

/-- C7: requesting a target id absent from the flat graph makes
`buildEvalGraph` fail with a lookup error naming the first missing id (the
target ids before it all being present), yielding no evaluator and hence no
result map: the whole call aborts with no partial result. -/
theorem buildEvalGraph_missing_target (graph : List NodeElement)
    (pre post : List String) (m : String)
    (hpre : ∀ i ∈ pre, (findElem graph i).isSome)
    (hm : findElem graph m = none) :
    buildEvalGraph graph (pre ++ m :: post) =
      Except.error ("Unable to find element with ID " ++ m) := by
  have h := buildOrder_missing graph post m hm pre hpre []
  simp [buildEvalGraph, buildEvalOrder, h, Except.map]

/-- C7 witness: requesting the present id `C` followed by the absent id `Q`
on the one-node flat graph `[cN]`. -/
theorem buildEvalGraph_missing_target_witness :
    buildEvalGraph [cN] (["C"] ++ "Q" :: []) =
      Except.error ("Unable to find element with ID " ++ "Q") :=
  buildEvalGraph_missing_target [cN] ["C"] [] "Q" (by decide) (by decide)

/-! ## Input assembly: declared defaults and missing output fields -/

theorem lookupA_cons_self {α : Type} (s : String) (v : α) (rest : List (String × α)) :
    lookupA ((s, v) :: rest) s = some v := by
  rw [lookupA, List.find?_cons_of_pos _ (by simp)]
  rfl

theorem lookupA_cons_ne {α : Type} (s1 s : String) (v : α) (rest : List (String × α))
    (h : s1 ≠ s) : lookupA ((s1, v) :: rest) s = lookupA rest s := by
  rw [lookupA, List.find?_cons_of_neg _ (by simp [h]), lookupA]

theorem buildInput_unwired_default
    (results : List (String × List (String × Value)))
    (incoming : List (String × Incoming)) (s : String) (d : SocketDesc)
    (desc : List (String × SocketDesc)) (input : List (String × Value))
    (hdesc : lookupA desc s = some d) (hinc : lookupA incoming s = none)
    (hok : buildInput results incoming desc = Except.ok input) :
    lookupA input s = some d.default := by
  induction desc generalizing input with
  | nil => simp [lookupA] at hdesc
  | cons p rest ih =>
    obtain ⟨s1, d1⟩ := p
    by_cases hs : s1 = s
    · subst hs
      rw [lookupA_cons_self] at hdesc
      injection hdesc with hdesc
      subst hdesc
      simp only [buildInput, hinc] at hok
      rcases h2 : buildInput results incoming rest with _ | tail
      · rw [h2] at hok; cases hok
      · rw [h2] at hok
        injection hok with hok
        subst hok
        rw [lookupA_cons_self]
    · rw [lookupA_cons_ne _ _ _ _ hs] at hdesc
      simp only [buildInput] at hok
      rcases h1 : lookupA incoming s1 with _ | ref
      all_goals simp only [h1] at hok
      · rcases h2 : buildInput results incoming rest with _ | tail
        all_goals rw [h2] at hok
        · cases hok
        · injection hok with hok
          subst hok
          rw [lookupA_cons_ne _ _ _ _ hs]
          exact ih tail hdesc h2
      · rcases h3 : lookupA results ref.elementId with _ | r
        all_goals simp only [h3] at hok
        · cases hok
        · rcases h2 : buildInput results incoming rest with _ | tail
          all_goals rw [h2] at hok
          · cases hok
          · injection hok with hok
            subst hok
            rw [lookupA_cons_ne _ _ _ _ hs]
            exact ih tail hdesc h2

theorem buildInput_wired_missing_field
    (results : List (String × List (String × Value)))
    (incoming : List (String × Incoming)) (s : String) (d : SocketDesc)
    (ref : Incoming) (r : List (String × Value))
    (desc : List (String × SocketDesc)) (input : List (String × Value))
    (hdesc : lookupA desc s = some d) (hinc : lookupA incoming s = some ref)
    (hres : lookupA results ref.elementId = some r)
    (hfield : lookupA r ref.socket = none)
    (hok : buildInput results incoming desc = Except.ok input) :
    lookupA input s = some Value.undef := by
  induction desc generalizing input with
  | nil => simp [lookupA] at hdesc
  | cons p rest ih =>
    obtain ⟨s1, d1⟩ := p
    by_cases hs : s1 = s
    · subst hs
      simp only [buildInput, hinc, hres] at hok
      rcases h2 : buildInput results incoming rest with _ | tail
      all_goals rw [h2] at hok
      · cases hok
      · injection hok with hok
        subst hok
        rw [lookupA_cons_self]
        simp [fieldOf, hfield]
    · rw [lookupA_cons_ne _ _ _ _ hs] at hdesc
      simp only [buildInput] at hok
      rcases h1 : lookupA incoming s1 with _ | ref1
      all_goals simp only [h1] at hok
      · rcases h2 : buildInput results incoming rest with _ | tail
        all_goals rw [h2] at hok
        · cases hok
        · injection hok with hok
          subst hok
          rw [lookupA_cons_ne _ _ _ _ hs]
          exact ih tail hdesc h2
      · rcases h3 : lookupA results ref1.elementId with _ | r1
        all_goals simp only [h3] at hok
        · cases hok
        · rcases h2 : buildInput results incoming rest with _ | tail
          all_goals rw [h2] at hok
          · cases hok
          · injection hok with hok
            subst hok
            rw [lookupA_cons_ne _ _ _ _ hs]
            exact ih tail hdesc h2

/-- C8: a declared input socket with no entry in the element's incoming map
is assigned the default value declared in that socket's descriptor from the
node type's `input(config)` for this element's config (the shape in which
the evaluator of `buildEvalGraph` invokes the input assembly). -/
theorem evaluator_unwired_socket_default
    (registry : String → NodeType) (e : NodeElement)
    (results : List (String × List (String × Value)))
    (s : String) (d : SocketDesc) (input : List (String × Value))
    (hdesc : lookupA ((registry e.typeId).input e.config) s = some d)
    (hinc : lookupA e.incoming s = none)
    (hok : buildInput results e.incoming ((registry e.typeId).input e.config) =
      Except.ok input) :
    lookupA input s = some d.default :=
  buildInput_unwired_default results e.incoming s d _ input hdesc hinc hok

/-- C8 witness: the element `U` of type `tB` declares socket `z` (default 0)
and wires nothing; the assembled input gives `z` the value 0. -/
theorem evaluator_unwired_socket_default_witness :
    lookupA [("z", Value.int 0)] "z" = some (descN (Value.int 0)).default :=
  evaluator_unwired_socket_default dReg (mkNode "U" "tB" []) [] "z"
    (descN (Value.int 0)) [("z", Value.int 0)] rfl rfl rfl

/-- C10: a declared input socket wired to a producer whose entry is present
in the results map but whose output record has no field named by the
reference is assigned the undefined value: the evaluator does not fall back
to the declared default and raises no error for that socket. -/
theorem evaluator_missing_field_undefined
    (registry : String → NodeType) (e : NodeElement)
    (results : List (String × List (String × Value)))
    (s : String) (d : SocketDesc) (ref : Incoming) (r : List (String × Value))
    (input : List (String × Value))
    (hdesc : lookupA ((registry e.typeId).input e.config) s = some d)
    (hinc : lookupA e.incoming s = some ref)
    (hres : lookupA results ref.elementId = some r)
    (hfield : lookupA r ref.socket = none)
    (hok : buildInput results e.incoming ((registry e.typeId).input e.config) =
      Except.ok input) :
    lookupA input s = some Value.undef :=
  buildInput_wired_missing_field results e.incoming s d ref r _ input
    hdesc hinc hres hfield hok

/-- C10 witness: `B`'s declared socket `z` is wired to `(C, o)`; the results
map holds an entry for `C` whose record has only the field `other`, so the
assembled input gives `z` the undefined value even though the declared
default is 0. -/
theorem evaluator_missing_field_undefined_witness :
    lookupA [("z", Value.undef)] "z" = some Value.undef ∧
    (descN (Value.int 0)).default ≠ Value.undef :=
  ⟨evaluator_missing_field_undefined dReg bN [("C", [("other", Value.int 9)])]
      "z" (descN (Value.int 0)) ⟨"C", "o"⟩ [("other", Value.int 9)]
      [("z", Value.undef)] rfl rfl rfl rfl rfl,
   by decide⟩

/-! ## Flatten rewrites wiring only -/

theorem agree_refl (a : NodeElement) : agreeExceptIncoming a a :=
  ⟨rfl, rfl, rfl, rfl, rfl, rfl, rfl, rfl⟩

theorem agree_trans {a b c : NodeElement} (h1 : agreeExceptIncoming a b)
    (h2 : agreeExceptIncoming b c) : agreeExceptIncoming a c := by
  obtain ⟨a1, a2, a3, a4, a5, a6, a7, a8⟩ := h1
  obtain ⟨b1, b2, b3, b4, b5, b6, b7, b8⟩ := h2
  exact ⟨a1.trans b1, a2.trans b2, a3.trans b3, a4.trans b4, a5.trans b5,
    a6.trans b6, a7.trans b7, a8.trans b8⟩

theorem rewriteIncoming_keys (rd : RedirTable) (inc : List (String × Incoming)) :
    ((rewriteIncoming rd inc).1).map Prod.fst = inc.map Prod.fst := by
  induction inc with
  | nil => rfl
  | cons p rest ih =>
    obtain ⟨s, i⟩ := p
    simp only [rewriteIncoming]
    rcases h : rewriteIncoming rd rest with ⟨r, ch⟩
    rw [h] at ih
    rcases h2 : lookupRedir rd (redirKey i.elementId i.socket) with _ | tgt
    all_goals simp [ih]

theorem rewriteElem_agree (rd : RedirTable) (e : NodeElement) :
    agreeExceptIncoming (rewriteElem rd e).1 e := by
  simp only [rewriteElem]
  rcases h : rewriteIncoming rd e.incoming with ⟨inc2, ch⟩
  refine ⟨rfl, rfl, rfl, rfl, rfl, rfl, rfl, ?_⟩
  have hk := rewriteIncoming_keys rd e.incoming
  rw [h] at hk
  exact hk

theorem rewritePass_mem (rd : RedirTable) (l : List NodeElement) (a : NodeElement)
    (ha : a ∈ (rewritePass rd l).1) : ∃ b ∈ l, agreeExceptIncoming a b := by
  induction l with
  | nil => simp [rewritePass] at ha
  | cons e rest ih =>
    simp only [rewritePass] at ha
    rcases h1 : rewriteElem rd e with ⟨e2, ch1⟩
    rcases h2 : rewritePass rd rest with ⟨rest2, ch2⟩
    rw [h1, h2] at ha
    simp only [List.mem_cons] at ha
    rcases ha with rfl | ha
    · refine ⟨e, List.mem_cons_self _ _, ?_⟩
      have := rewriteElem_agree rd e
      rw [h1] at this
      exact this
    · obtain ⟨b, hb, hab⟩ := ih (by rw [h2]; exact ha)
      exact ⟨b, List.mem_cons_of_mem _ hb, hab⟩

theorem fixLoop_mem (rd : RedirTable) (fuel : Nat) :
    ∀ l l2 : List NodeElement, fixLoop rd fuel l = Except.ok l2 →
    ∀ a ∈ l2, ∃ b ∈ l, agreeExceptIncoming a b := by
  induction fuel with
  | zero => intro l l2 h; cases h
  | succ fuel ih =>
    intro l l2 h a ha
    simp only [fixLoop] at h
    split at h
    · rename_i lp heq
      obtain ⟨b, hb, hab⟩ := ih lp l2 h a ha
      obtain ⟨c, hc, hbc⟩ := rewritePass_mem rd l b (by rw [heq]; exact hb)
      exact ⟨c, hc, agree_trans hab hbc⟩
    · rename_i lp heq
      injection h with h
      subst h
      exact rewritePass_mem rd l a (by rw [heq]; exact ha)

theorem flattenElems_mem (g : GEList) :
    ∀ (fl : List NodeElement) (rd : RedirTable),
    flattenElems g = Except.ok (fl, rd) →
    ∀ a ∈ fl, ∃ b, NestedNode g b ∧ agreeExceptIncoming a b := by
  induction g using flattenElems.induct with
  | case1 =>
    intro fl rd h a ha
    simp only [flattenElems, Except.ok.injEq, Prod.mk.injEq] at h
    obtain ⟨h1, _⟩ := h
    subst h1
    cases ha
  | case2 n rest msg herr _ =>
    intro fl rd h
    simp only [flattenElems, herr] at h
    cases h
  | case3 n rest fl0 rd0 hrest ih =>
    intro fl rd h a ha
    simp only [flattenElems, hrest, Except.ok.injEq, Prod.mk.injEq] at h
    obtain ⟨h1, _⟩ := h
    subst h1
    rcases List.mem_cons.mp ha with rfl | ha
    · exact ⟨a, NestedNode.here a rest, agree_refl a⟩
    · obtain ⟨b, hb, hab⟩ := ih fl0 rd0 hrest a ha
      exact ⟨b, NestedNode.there _ _ _ hb, hab⟩
  | case4 gid lbl x y w sub ginc rest giId giExps goExps hgo hgi msg herr _ =>
    intro fl rd h
    simp only [flattenElems, hgi, hgo, herr] at h
    cases h
  | case5 gid lbl x y w sub ginc rest giId giExps goExps hgo hgi fl1 rd1 hsub msg hfix _ =>
    intro fl rd h
    simp only [flattenElems, hgi, hgo, hsub, hfix] at h
    cases h
  | case6 gid lbl x y w sub ginc rest giId giExps goExps hgo hgi fl1 rd1 hsub subFl hfix
      msg herr _ _ =>
    intro fl rd h
    simp only [flattenElems, hgi, hgo, hsub, hfix, herr] at h
    cases h
  | case7 gid lbl x y w sub ginc rest giId giExps goExps hgo hgi fl1 rd1 hsub subFl hfix
      fl0 rd0 hrest ihsub ihrest =>
    intro fl rd h a ha
    simp only [flattenElems, hgi, hgo, hsub, hfix, hrest, Except.ok.injEq,
      Prod.mk.injEq] at h
    obtain ⟨h1, _⟩ := h
    subst h1
    rcases List.mem_append.mp ha with ha | ha
    · obtain ⟨b, hb, hab⟩ := fixLoop_mem rd1 (rd1.length + 2) fl1 subFl hfix a ha
      obtain ⟨c, hc, hbc⟩ := ihsub fl1 rd1 hsub b hb
      exact ⟨c, NestedNode.inSub _ _ _ _ _ _ _ _ _ hc, agree_trans hab hbc⟩
    · obtain ⟨b, hb, hab⟩ := ihrest fl0 rd0 hrest a ha
      exact ⟨b, NestedNode.there _ _ _ hb, hab⟩
  | case8 gid lbl x y w sub ginc rest hmiss =>
    intro fl rd h
    simp only [flattenElems] at h
    cases h
  | case9 e rest h1 h2 ih =>
    intro fl rd h
    rw [flattenElems] at h
    · intro a ha
      obtain ⟨b, hb, hab⟩ := ih fl rd h a ha
      exact ⟨b, NestedNode.there _ _ _ hb, hab⟩
    · exact h1
    · exact h2

/-- C9: flattening only rewrites wiring.  Every node element of the flat
output agrees with a node element of the input graph (possibly nested inside
groups) on every field except `incoming`, and its rewritten incoming record
carries exactly the same socket keys. -/
theorem flatten_preserves_fields_except_incoming
    (g : GEList) (l : List NodeElement) (hok : flatten g = Except.ok l) :
    ∀ a ∈ l, ∃ b : NodeElement, NestedNode g b ∧ agreeExceptIncoming a b := by
  intro a ha
  simp only [flatten] at hok
  rcases h1 : flattenElems g with msg | ⟨fl, rd⟩
  · rw [h1] at hok; cases hok
  · rw [h1] at hok
    obtain ⟨b, hb, hab⟩ := fixLoop_mem rd (rd.length + 2) fl l hok a ha
    obtain ⟨c, hc, hbc⟩ := flattenElems_mem g fl rd h1 b hb
    exact ⟨c, hc, agree_trans hab hbc⟩

/-- C9 witness: the one-node graph `[cN]` flattens to itself, and `cN`
agrees with a nested node of the input. -/
theorem flatten_preserves_fields_witness :
    ∃ b : NodeElement, NestedNode (ofNodes [cN]) b ∧ agreeExceptIncoming cN b :=
  flatten_preserves_fields_except_incoming (ofNodes [cN]) [cN] rfl cN (by simp)

/-! ## Invariants of the depth-first traversal and deduplication -/

theorem visit_mono (graph : List NodeElement) :
    ∀ (stack order : List NodeElement) (hs : ∀ e ∈ stack, e ∈ graph),
    ∀ x ∈ order, x ∈ visit graph stack order hs := by
  intro stack order hs
  induction stack, order, hs using visit.induct graph with
  | case1 order h1 h2 =>
    intro x hx
    rw [visit]
    exact hx
  | case2 top stack order hs h _ ih =>
    intro x hx
    rw [visit, dif_pos h]
    exact ih x hx
  | case3 top stack order hs h _ ih =>
    intro x hx
    rw [visit, dif_neg h]
    exact ih x (List.mem_cons_of_mem _ hx)

theorem visit_stack_mem (graph : List NodeElement) :
    ∀ (stack order : List NodeElement) (hs : ∀ e ∈ stack, e ∈ graph),
    ∀ x ∈ stack, x ∈ visit graph stack order hs := by
  intro stack order hs
  induction stack, order, hs using visit.induct graph with
  | case1 order h1 h2 =>
    intro x hx
    cases hx
  | case2 top stack order hs h _ ih =>
    intro x hx
    rw [visit, dif_pos h]
    rcases List.mem_cons.mp hx with rfl | hx
    · exact visit_mono graph stack order _ x h
    · exact ih x hx
  | case3 top stack order hs h _ ih =>
    intro x hx
    rw [visit, dif_neg h]
    rcases List.mem_cons.mp hx with rfl | hx
    · exact visit_mono graph _ _ _ x (List.mem_cons_self _ _)
    · exact ih x (List.mem_append_right _ hx)

theorem visit_subset (graph : List NodeElement) :
    ∀ (stack order : List NodeElement) (hs : ∀ e ∈ stack, e ∈ graph),
    (∀ x ∈ order, x ∈ graph) →
    ∀ x ∈ visit graph stack order hs, x ∈ graph := by
  intro stack order hs
  induction stack, order, hs using visit.induct graph with
  | case1 order h1 h2 =>
    intro ho x hx
    rw [visit] at hx
    exact ho x hx
  | case2 top stack order hs h _ ih =>
    intro ho x hx
    rw [visit, dif_pos h] at hx
    exact ih ho x hx
  | case3 top stack order hs h _ ih =>
    intro ho x hx
    rw [visit, dif_neg h] at hx
    refine ih ?_ x hx
    intro y hy
    rcases List.mem_cons.mp hy with rfl | hy
    · exact hs y (List.mem_cons_self _ _)
    · exact ho y hy

theorem visit_nodup (graph : List NodeElement) :
    ∀ (stack order : List NodeElement) (hs : ∀ e ∈ stack, e ∈ graph),
    order.Nodup → (visit graph stack order hs).Nodup := by
  intro stack order hs
  induction stack, order, hs using visit.induct graph with
  | case1 order h1 h2 =>
    intro hnd
    rw [visit]
    exact hnd
  | case2 top stack order hs h _ ih =>
    intro hnd
    rw [visit, dif_pos h]
    exact ih hnd
  | case3 top stack order hs h _ ih =>
    intro hnd
    rw [visit, dif_neg h]
    exact ih (List.nodup_cons.mpr ⟨h, hnd⟩)

theorem visit_closed (graph : List NodeElement) :
    ∀ (stack order : List NodeElement) (hs : ∀ e ∈ stack, e ∈ graph),
    (∀ x ∈ order, ∀ d ∈ depsOf graph x, d ∈ order ∨ d ∈ stack) →
    ∀ x ∈ visit graph stack order hs, ∀ d ∈ depsOf graph x,
      d ∈ visit graph stack order hs := by
  intro stack order hs
  induction stack, order, hs using visit.induct graph with
  | case1 order h1 h2 =>
    intro hcl x hx d hd
    rw [visit] at hx ⊢
    rcases hcl x hx d hd with h | h
    · exact h
    · cases h
  | case2 top stack order hs h _ ih =>
    intro hcl x hx d hd
    rw [visit, dif_pos h] at hx ⊢
    refine ih ?_ x hx d hd
    intro y hy dy hdy
    rcases hcl y hy dy hdy with h1 | h1
    · exact Or.inl h1
    · rcases List.mem_cons.mp h1 with rfl | h1
      · exact Or.inl h
      · exact Or.inr h1
  | case3 top stack order hs h _ ih =>
    intro hcl x hx d hd
    rw [visit, dif_neg h] at hx ⊢
    refine ih ?_ x hx d hd
    intro y hy dy hdy
    rcases List.mem_cons.mp hy with rfl | hy
    · exact Or.inr (List.mem_append_left _ (List.mem_reverse.mpr hdy))
    · rcases hcl y hy dy hdy with h1 | h1
      · exact Or.inl (List.mem_cons_of_mem _ h1)
      · rcases List.mem_cons.mp h1 with rfl | h1
        · exact Or.inl (List.mem_cons_self _ _)
        · exact Or.inr (List.mem_append_right _ h1)

theorem buildOrder_inv (graph : List NodeElement) :
    ∀ (ts : List String) (order res : List NodeElement),
    buildOrder graph ts order = Except.ok res →
    (∀ x ∈ order, x ∈ graph) → order.Nodup →
    (∀ x ∈ order, ∀ d ∈ depsOf graph x, d ∈ order) →
    (∀ x ∈ order, x ∈ res) ∧ (∀ x ∈ res, x ∈ graph) ∧ res.Nodup ∧
    (∀ x ∈ res, ∀ d ∈ depsOf graph x, d ∈ res) ∧
    (∀ t ∈ ts, ∀ e, findElem graph t = some e → e ∈ res) := by
  intro ts
  induction ts with
  | nil =>
    intro order res h hsub hnd hcl
    injection h with h
    subst h
    exact ⟨fun x hx => hx, hsub, hnd, hcl, fun t ht => absurd ht (List.not_mem_nil t)⟩
  | cons id rest ih =>
    intro order res h hsub hnd hcl
    unfold buildOrder at h
    split at h
    · cases h
    · rename_i e he
      set order2 := visit graph [e] order (fun x hx => by
        rcases List.mem_singleton.mp hx with rfl
        exact List.mem_of_find?_eq_some he) with horder2
      have hsub2 : ∀ x ∈ order2, x ∈ graph :=
        visit_subset graph [e] order _ hsub
      have hnd2 : order2.Nodup := visit_nodup graph [e] order _ hnd
      have hcl2 : ∀ x ∈ order2, ∀ d ∈ depsOf graph x, d ∈ order2 :=
        visit_closed graph [e] order _
          (fun x hx d hd => Or.inl (hcl x hx d hd))
      have hmono : ∀ x ∈ order, x ∈ order2 := visit_mono graph [e] order _
      have hein : e ∈ order2 :=
        visit_stack_mem graph [e] order _ e (List.mem_singleton.mpr rfl)
      obtain ⟨h1, h2, h3, h4, h5⟩ := ih order2 res h hsub2 hnd2 hcl2
      refine ⟨fun x hx => h1 x (hmono x hx), h2, h3, h4, ?_⟩
      intro t ht e2 he2
      rcases List.mem_cons.mp ht with rfl | ht
      · rw [he] at he2
        injection he2 with he2
        subst he2
        exact h1 e hein
      · exact h5 t ht e2 he2

/-- An element reachable from a requested target is in the computed order
(completeness of the traversal), and the order is duplicate-free. -/
theorem buildEvalOrder_reachable_mem (graph : List NodeElement)
    (targetIds : List String) (order : List NodeElement) (t : String)
    (e : NodeElement) (hok : buildEvalOrder graph targetIds = Except.ok order)
    (ht : t ∈ targetIds) (hr : ReachableFrom graph t e) : e ∈ order := by
  obtain ⟨_, _, _, hcl, htgt⟩ := buildOrder_inv graph targetIds [] order hok
    (fun x hx => absurd hx (List.not_mem_nil x)) List.nodup_nil
    (fun x hx => absurd hx (List.not_mem_nil x))
  induction hr with
  | root e2 hfind => exact htgt t ht e2 hfind
  | step a b _ hdep iha => exact hcl a iha b hdep

theorem runEval_cons_err (registry : String → NodeType) (e : NodeElement)
    (rest : List NodeElement) (res : List (String × List (String × Value)))
    (msg : String)
    (h : buildInput res e.incoming ((registry e.typeId).input e.config) =
      Except.error msg) :
    runEval registry (e :: rest) res = ([], Except.error msg) := by
  conv_lhs => rw [runEval, h]

theorem runEval_cons_ok (registry : String → NodeType) (e : NodeElement)
    (rest : List NodeElement) (res : List (String × List (String × Value)))
    (input : List (String × Value))
    (h : buildInput res e.incoming ((registry e.typeId).input e.config) =
      Except.ok input) :
    runEval registry (e :: rest) res =
      (e.elementId :: (runEval registry rest
          (res ++ [(e.elementId, (registry e.typeId).evaluate input e.config)])).1,
        (runEval registry rest
          (res ++ [(e.elementId, (registry e.typeId).evaluate input e.config)])).2) := by
  conv_lhs => rw [runEval, h]

theorem runEval_trace_count (registry : String → NodeType)
    (order : List NodeElement) (x : String) :
    ∀ res, ((runEval registry order res).1).count x ≤
      (order.map (fun e => e.elementId)).count x := by
  induction order with
  | nil =>
    intro res
    simp [runEval]
  | cons e rest ih =>
    intro res
    rcases h1 : buildInput res e.incoming ((registry e.typeId).input e.config)
      with msg | input
    · rw [runEval_cons_err registry e rest res msg h1]
      simp
    · rw [runEval_cons_ok registry e rest res input h1]
      have hrec := ih (res ++ [(e.elementId, (registry e.typeId).evaluate input e.config)])
      simp only [List.map_cons, List.count_cons]
      omega

theorem runEval_trace_of_ok (registry : String → NodeType)
    (order : List NodeElement) :
    ∀ res m, (runEval registry order res).2 = Except.ok m →
    (runEval registry order res).1 = order.map (fun e => e.elementId) := by
  induction order with
  | nil =>
    intro res m _
    rfl
  | cons e rest ih =>
    intro res m h
    rcases h1 : buildInput res e.incoming ((registry e.typeId).input e.config)
      with msg | input
    · rw [runEval_cons_err registry e rest res msg h1] at h
      cases h
    · rw [runEval_cons_ok registry e rest res input h1] at h ⊢
      replace h : (runEval registry rest
          (res ++ [(e.elementId, (registry e.typeId).evaluate input e.config)])).2 =
          Except.ok m := h
      simp only [List.map_cons, List.cons.injEq]
      exact ⟨trivial, ih _ m h⟩

/-- C5 amended: an element reachable from two distinct requested targets
appears exactly once in the evaluation order; during a run, its node type's
`evaluate` is invoked at most once, and exactly once whenever the run
completes and returns a results map.  (The unamended "exactly once per
evaluation run" fails when the run aborts on the order defect before
reaching the element.) -/
theorem evalOrder_dedup_amended (graph : List NodeElement)
    (targetIds : List String) (order : List NodeElement)
    (registry : String → NodeType) (e : NodeElement) (t1 t2 : String)
    (hids : (graph.map (fun n => n.elementId)).Nodup)
    (ht1 : t1 ∈ targetIds) (ht2 : t2 ∈ targetIds) (hne : t1 ≠ t2)
    (hr1 : ReachableFrom graph t1 e) (hr2 : ReachableFrom graph t2 e)
    (hok : buildEvalOrder graph targetIds = Except.ok order) :
    order.count e = 1 ∧
    ((runEval registry order []).1.count e.elementId ≤ 1) ∧
    (∀ m, (runEval registry order []).2 = Except.ok m →
      (runEval registry order []).1.count e.elementId = 1) := by
  obtain ⟨_, hsub, hnd, _, _⟩ := buildOrder_inv graph targetIds [] order hok
    (fun x hx => absurd hx (List.not_mem_nil x)) List.nodup_nil
    (fun x hx => absurd hx (List.not_mem_nil x))
  have hmem : e ∈ order :=
    buildEvalOrder_reachable_mem graph targetIds order t1 e hok ht1 hr1
  have hidnd : (order.map (fun n => n.elementId)).Nodup :=
    List.Nodup.map_on
      (fun a ha b hb hab =>
        List.inj_on_of_nodup_map hids (hsub a ha) (hsub b hb) hab)
      hnd
  have hidmem : e.elementId ∈ order.map (fun n => n.elementId) :=
    List.mem_map_of_mem _ hmem
  have hidcount : (order.map (fun n => n.elementId)).count e.elementId = 1 :=
    List.count_eq_one_of_mem hidnd hidmem
  refine ⟨List.count_eq_one_of_mem hnd hmem, ?_, ?_⟩
  · have := runEval_trace_count registry order e.elementId []
    omega
  · intro m hm
    rw [runEval_trace_of_ok registry order [] m hm]
    exact hidcount

/-- C5 counterexample: on the diamond graph extended by the second consumer
`D` of `C`, with targets `[A, D]`, the element `C` is reachable from both
distinct targets and appears exactly once in the computed order
`[D, B, C, A]`, but the run aborts at `D` (whose dependency `C` has no
results entry yet), so `C`'s `evaluate` is invoked zero times — not exactly
once — in that evaluation run. -/
theorem evalOrder_shared_element_not_evaluated :
    ReachableFrom g5 "A" cN ∧ ReachableFrom g5 "D" cN ∧ ("A" : String) ≠ "D" ∧
    buildEvalOrder g5 ["A", "D"] = Except.ok [dN, bN, cN, aN] ∧
    List.count cN [dN, bN, cN, aN] = 1 ∧
    (runEval dReg [dN, bN, cN, aN] []).1.count "C" = 0 := by
  refine ⟨?_, ?_, by decide, ?_, by decide, by decide⟩
  · exact ReachableFrom.step aN cN (ReachableFrom.root aN (by decide)) (by decide)
  · exact ReachableFrom.step dN cN (ReachableFrom.root dN (by decide)) (by decide)
  · simp +decide [buildEvalOrder, buildOrder, visit, depsOf, findElem, List.find?,
      List.filterMap, lookupA, g5, aN, bN, cN, dN, mkNode]

/-- C5 witness: the amended deduplication theorem applied to the two-node
graph `gW` with targets `[E1, S]`: `S` is reachable from both targets, the
order is `[S, E1]`, the run completes, and `S` is evaluated exactly once. -/
theorem evalOrder_dedup_amended_witness :
    List.count sN [sN, e1N] = 1 ∧
    ((runEval dReg [sN, e1N] []).1.count sN.elementId ≤ 1) ∧
    (runEval dReg [sN, e1N] []).1.count sN.elementId = 1 := by
  have h := evalOrder_dedup_amended gW ["E1", "S"] [sN, e1N] dReg sN "E1" "S"
    (by decide) (by decide) (by decide) (by decide)
    (ReachableFrom.step e1N sN (ReachableFrom.root e1N (by decide)) (by decide))
    (ReachableFrom.root sN (by decide))
    (by simp +decide [buildEvalOrder, buildOrder, visit, depsOf, findElem, List.find?,
      List.filterMap, lookupA, gW, sN, e1N, mkNode])
  exact ⟨h.1, h.2.1,
    h.2.2 [("S", [("o", Value.int 1)]), ("E1", [("o", Value.int 2)])] rfl⟩

end NaharaGraph
